import Mathlib

/-!
Verification of the interval-tree core (`src/core/interval_tree.c`).

The module is an augmented binary search tree over closed intervals keyed by
`(low, high)`.  Nodes carry three derived aggregate fields (`max`, `size`,
`height`).  We embed the tree shape as an inductive type (`NULL` children are
`leaf`), the iterative pointer walks of the C code as structurally recursive
functions over a zipper (parent pointers become a list of context frames), and
machine integers as `Nat` (the endpoint type is unsigned; the comparator model
below makes the 32-bit wrap-around of the C code explicit where it matters).
-/

set_option maxHeartbeats 1000000

namespace IntervalTree

/-- Shape of `struct interval_node`: `node l low high max size height r`.
`NULL` child pointers are `leaf`. -/
inductive ITree : Type where
  | leaf : ITree
  | node : ITree → Nat → Nat → Nat → Nat → Nat → ITree → ITree
deriving DecidableEq

namespace ITree

/-- `interval_tree_node_max`: `n ? n->max : 0`. -/
def nodeMax : ITree → Nat
  | .leaf => 0
  | .node _ _ _ m _ _ _ => m

/-- `interval_tree_node_size`: `n ? n->size : 0`. -/
def nodeSize : ITree → Nat
  | .leaf => 0
  | .node _ _ _ _ s _ _ => s

/-- `interval_tree_node_height`: `n ? n->height : 0`. -/
def nodeHeight : ITree → Nat
  | .leaf => 0
  | .node _ _ _ _ _ h _ => h

/-- In-order list of the stored `(low, high)` intervals. -/
def inorder : ITree → List (Nat × Nat)
  | .leaf => []
  | .node l a b _ _ _ r => inorder l ++ (a, b) :: inorder r

/-- Number of nodes actually present in the tree (independent of the stored
`size` fields). -/
def nodeCount : ITree → Nat
  | .leaf => 0
  | .node l _ _ _ _ _ r => 1 + nodeCount l + nodeCount r

end ITree

open ITree

/-- `interval_tree_intersects`: `high >= n->low && n->high >= low` for a node
storing the interval `p`. -/
def intersects (lo hi : Nat) (p : Nat × Nat) : Bool :=
  decide (p.1 ≤ hi) && decide (lo ≤ p.2)

/-- Strict lexicographic order on `(low, high)` pairs, the order the
comparator is specified to realize. -/
def pairLtB (x y : Nat × Nat) : Bool :=
  decide (x.1 < y.1) || (decide (x.1 = y.1) && decide (x.2 < y.2))

/-- BST-ordering invariant: each node's left subtree sorts strictly before it
and its right subtree strictly after it, in `(low, high)` lexicographic
order. -/
def bstOk : ITree → Bool
  | .leaf => true
  | .node l a b _ _ _ r =>
      bstOk l && bstOk r &&
      (inorder l).all (fun x => pairLtB x (a, b)) &&
      (inorder r).all (fun x => pairLtB (a, b) x)

/-- Augmentation-consistency invariant, exactly the formulas of
`interval_tree_fix_counts` (absent children contribute `0`). -/
def augOk : ITree → Bool
  | .leaf => true
  | .node l _ b m s h r =>
      augOk l && augOk r &&
      (m == max (max b (nodeMax l)) (nodeMax r)) &&
      (s == 1 + nodeSize l + nodeSize r) &&
      (h == 1 + max (nodeHeight l) (nodeHeight r))

/-! ### Zipper: positions inside a tree

The C traversals walk `parent` pointers.  A position is a focused subtree plus
a list of frames recording, for each ancestor, which child slot we are in, the
ancestor's own fields, and its other subtree.  The head frame is the immediate
parent. -/

/-- One ancestor frame.  `left a b m s h r`: the focus is the *left* child of
a node with fields `a b m s h` and right subtree `r`.  `right l a b m s h`:
the focus is the *right* child, `l` being the left subtree. -/
inductive Frame : Type where
  | left : Nat → Nat → Nat → Nat → Nat → ITree → Frame
  | right : ITree → Nat → Nat → Nat → Nat → Nat → Frame
deriving DecidableEq

abbrev Ctx := List Frame

/-- Rebuild the parent node from the focus and its frame. -/
def reassemble (t : ITree) : Frame → ITree
  | .left a b m s h r => .node t a b m s h r
  | .right l a b m s h => .node l a b m s h t

/-- Rebuild the whole tree from a position. -/
def plug : ITree → Ctx → ITree
  | t, [] => t
  | t, f :: ctx => plug (reassemble t f) ctx

/-- In-order elements situated strictly after the focused subtree. -/
def ctxAfter : Ctx → List (Nat × Nat)
  | [] => []
  | .left a b _ _ _ r :: ctx => (a, b) :: inorder r ++ ctxAfter ctx
  | .right _ _ _ _ _ _ :: ctx => ctxAfter ctx

/-- A position at a concrete node: the node's fields, its two subtrees and
the ancestor context. -/
structure Pos : Type where
  l : ITree
  low : Nat
  high : Nat
  maxv : Nat
  size : Nat
  height : Nat
  r : ITree
  ctx : Ctx
deriving DecidableEq

/-- The subtree rooted at the position's node. -/
def Pos.tree (p : Pos) : ITree := .node p.l p.low p.high p.maxv p.size p.height p.r

/-- The interval stored at the position's node. -/
def Pos.data (p : Pos) : Nat × Nat := (p.low, p.high)

/-- In-order elements strictly after the position's node in the whole tree. -/
def afterL (p : Pos) : List (Nat × Nat) := inorder p.r ++ ctxAfter p.ctx

/-- `!n->base.left || INTERVAL_NODE(n->base.left)->max < low`: the guard that
excludes the left subtree in `interval_tree_min_interval` and
`interval_tree_find`. -/
def condLeft (l : ITree) (lo : Nat) : Bool :=
  match l with
  | .leaf => true
  | .node _ _ _ m _ _ _ => decide (m < lo)

/-- `interval_tree_min_interval`, with the pointer walk made explicit: `best`
is the C variable `min`, the context grows as the walk descends. -/
def minGo (lo hi : Nat) : ITree → Ctx → Option Pos → Option Pos
  | .leaf, _, best => best
  | .node l a b m s h r, ctx, best =>
    let isect := intersects lo hi (a, b)
    let best' := if isect then some ⟨l, a, b, m, s, h, r, ctx⟩ else best
    if condLeft l lo then
      if isect then best'
      else minGo lo hi r (.right l a b m s h :: ctx) best'
    else
      minGo lo hi l (.left a b m s h r :: ctx) best'

/-- The climbing phase of `interval_tree_next_interval`: pop ancestors while
the focus is a right child; on reaching an ancestor through a left-child edge,
return it if it overlaps, otherwise the outer loop of the C code resumes from
that ancestor (search its right subtree, then climb further). -/
def nextUp (lo hi : Nat) : ITree → Ctx → Option Pos
  | _, [] => none
  | t, .right l a b m s h :: ctx => nextUp lo hi (.node l a b m s h t) ctx
  | t, .left a b m s h r :: ctx =>
    if intersects lo hi (a, b) then some ⟨t, a, b, m, s, h, r, ctx⟩
    else
      match r with
      | .leaf => nextUp lo hi (.node t a b m s h .leaf) ctx
      | .node rl ra rb rm rs rh rr =>
        match minGo lo hi (.node rl ra rb rm rs rh rr) (.right t a b m s h :: ctx) none with
        | some q => some q
        | none => nextUp lo hi (.node t a b m s h (.node rl ra rb rm rs rh rr)) ctx

/-- One entry of the outer loop of `interval_tree_next_interval` from the
current node: try the right subtree, then climb. -/
def nextStep (lo hi : Nat) (t : ITree) (ctx : Ctx) : Option Pos :=
  match t with
  | .leaf => none
  | .node l a b m s h .leaf => nextUp lo hi (.node l a b m s h .leaf) ctx
  | .node l a b m s h (.node rl ra rb rm rs rh rr) =>
    match minGo lo hi (.node rl ra rb rm rs rh rr) (.right l a b m s h :: ctx) none with
    | some q => some q
    | none => nextUp lo hi (.node l a b m s h (.node rl ra rb rm rs rh rr)) ctx

/-- `interval_tree_next_interval` (`NULL` in, `NULL` out). -/
def nextInterval (lo hi : Nat) : Option Pos → Option Pos
  | none => none
  | some p => nextStep lo hi p.tree p.ctx

/-- `struct rb_tree`: the handle holds only the root reference. -/
structure RBTree : Type where
  root : ITree
deriving DecidableEq

/-- `interval_tree_find`. -/
def findGo (lo hi : Nat) : ITree → Option (Nat × Nat)
  | .leaf => none
  | .node l a b _ _ _ r =>
    if intersects lo hi (a, b) then some (a, b)
    else if condLeft l lo then findGo lo hi r
    else findGo lo hi l

/-- `interval_tree_find` on the tree handle. -/
def interval_tree_find (t : RBTree) (lo hi : Nat) : Option (Nat × Nat) :=
  findGo lo hi t.root

/-- `interval_tree_clear`: `t->root = NULL`. -/
def interval_tree_clear (_t : RBTree) : RBTree := ⟨.leaf⟩

/-- `struct interval_tree_it`: query bounds plus current node (absent when
exhausted). -/
structure IterState : Type where
  low : Nat
  high : Nat
  n : Option Pos
deriving DecidableEq

/-- `interval_tree_iter_first`. -/
def interval_tree_iter_first (t : RBTree) (lo hi : Nat) : IterState :=
  ⟨lo, hi, minGo lo hi t.root [] none⟩

/-- `interval_tree_iter_next`: `it->n = interval_tree_next_interval(it->n, it->low, it->high)`. -/
def interval_tree_iter_next (it : IterState) : IterState :=
  ⟨it.low, it.high, nextInterval it.low it.high it.n⟩

/-- The sequence produced by the iterator: current interval, then repeated
`interval_tree_iter_next` until the cursor is absent (bounded by a fuel). -/
def iterSeq : Nat → IterState → List (Nat × Nat)
  | 0, _ => []
  | fuel + 1, it =>
    match it.n with
    | none => []
    | some q => q.data :: iterSeq fuel (interval_tree_iter_next it)

/-! ### Augmentation callbacks -/

/-- `interval_tree_fix_counts`: recompute a node's `size`, `height`, `max`
from its immediate children. -/
def fixCounts : ITree → ITree
  | .leaf => .leaf
  | .node l a b _ _ _ r =>
      .node l a b (max (max b (nodeMax l)) (nodeMax r))
        (1 + nodeSize l + nodeSize r)
        (1 + max (nodeHeight l) (nodeHeight r)) r

/-- `interval_tree_augment_propagate`: fix the counts of the starting node and
of every ancestor up to the root; returns the resulting whole tree. -/
def propagate : ITree → Ctx → ITree
  | t, [] => fixCounts t
  | t, f :: ctx => propagate (reassemble (fixCounts t) f) ctx

/-- Modelled from the spec: the balancing engine (`rb_tree.c`, not under
`src/`) performs a left rotation by pointer surgery only, leaving the
aggregate fields of the two rotated nodes stale; `interval_tree_augment_rotate`
then recomputes the old top first and the new top second.  (The fixup of the
new top's parent is the generic `fixCounts` of a node with consistent
children, stated separately.) -/
def rotateLeftFixed : ITree → ITree
  | .node α a b m s h (.node β c d m2 s2 h2 γ) =>
      fixCounts (.node (fixCounts (.node α a b m s h β)) c d m2 s2 h2 γ)
  | t => t

/-- Modelled from the spec: right rotation followed by the rotation fixup
(old top recomputed first, new top second). -/
def rotateRightFixed : ITree → ITree
  | .node (.node β c d m2 s2 h2 γ) a b m s h α =>
      fixCounts (.node β c d m2 s2 h2 (fixCounts (.node γ a b m s h α)))
  | t => t

/-- Both immediate children of the focus satisfy the augmentation invariant
(the focus's own fields may be stale). -/
def childrenAug : ITree → Bool
  | .leaf => true
  | .node l _ _ _ _ _ r => augOk l && augOk r

/-- Every subtree hanging off the context satisfies the augmentation
invariant (the ancestors' own fields may be stale). -/
def ctxAug : Ctx → Bool
  | [] => true
  | .left _ _ _ _ _ r :: ctx => augOk r && ctxAug ctx
  | .right l _ _ _ _ _ :: ctx => augOk l && ctxAug ctx

/-! ### Context invariants for the query walks

The query code only ever re-enters a subtree stored in a `left` frame (an
ancestor's right subtree, reached later in in-order).  Right-frame subtrees
lie strictly before the focus in in-order and are never read again. -/

/-- Invariants required of a single frame by the traversal code. -/
def frameOkB : Frame → Bool
  | .left _ _ _ _ _ r => bstOk r && augOk r
  | .right _ _ _ _ _ _ => true

/-- Invariants required of a whole context. -/
def ctxOkB (ctx : Ctx) : Bool := ctx.all frameOkB

/-- Invariants required of a position for the iterator to keep working from
it: its right subtree is a consistent BST and the context is sound. -/
def posOkB (p : Pos) : Bool := bstOk p.r && augOk p.r && ctxOkB p.ctx

/-! ### Fueled variants of the three traversal loops (termination claims)

Each loop iteration of the C code either descends strictly to a child or pops
at least one context frame; the fueled variants return `none` exactly when the
iteration budget is exhausted. -/

/-- `interval_tree_find`'s loop with an explicit iteration budget. -/
def findFuel (lo hi : Nat) : Nat → ITree → Option (Option (Nat × Nat))
  | 0, _ => none
  | _ + 1, .leaf => some none
  | fuel + 1, .node l a b m s h r =>
    if intersects lo hi (a, b) then some (some (a, b))
    else if condLeft l lo then findFuel lo hi fuel r
    else findFuel lo hi fuel l

/-- `interval_tree_min_interval`'s loop with an explicit iteration budget. -/
def minGoFuel (lo hi : Nat) : Nat → ITree → Ctx → Option Pos → Option (Option Pos)
  | 0, _, _, _ => none
  | _ + 1, .leaf, _, best => some best
  | fuel + 1, .node l a b m s h r, ctx, best =>
    let isect := intersects lo hi (a, b)
    let best' := if isect then some ⟨l, a, b, m, s, h, r, ctx⟩ else best
    if condLeft l lo then
      if isect then some best'
      else minGoFuel lo hi fuel r (.right l a b m s h :: ctx) best'
    else
      minGoFuel lo hi fuel l (.left a b m s h r :: ctx) best'

/-- The climbing loop of `interval_tree_next_interval` with an explicit
iteration budget (the inner `min_interval` call is the already-total walk). -/
def nextUpFuel (lo hi : Nat) : Nat → ITree → Ctx → Option (Option Pos)
  | 0, _, _ => none
  | _ + 1, _, [] => some none
  | fuel + 1, t, .right l a b m s h :: ctx => nextUpFuel lo hi fuel (.node l a b m s h t) ctx
  | fuel + 1, t, .left a b m s h r :: ctx =>
    if intersects lo hi (a, b) then some (some ⟨t, a, b, m, s, h, r, ctx⟩)
    else
      match r with
      | .leaf => nextUpFuel lo hi fuel (.node t a b m s h .leaf) ctx
      | .node rl ra rb rm rs rh rr =>
        match minGo lo hi (.node rl ra rb rm rs rh rr) (.right t a b m s h :: ctx) none with
        | some q => some (some q)
        | none => nextUpFuel lo hi fuel (.node t a b m s h (.node rl ra rb rm rs rh rr)) ctx

/-- One outer iteration of `interval_tree_next_interval` with a budget for the
subsequent climb. -/
def nextStepFuel (lo hi : Nat) (fuel : Nat) (t : ITree) (ctx : Ctx) : Option (Option Pos) :=
  match t with
  | .leaf => some none
  | .node l a b m s h .leaf => nextUpFuel lo hi fuel (.node l a b m s h .leaf) ctx
  | .node l a b m s h (.node rl ra rb rm rs rh rr) =>
    match minGo lo hi (.node rl ra rb rm rs rh rr) (.right l a b m s h :: ctx) none with
    | some q => some (some q)
    | none => nextUpFuel lo hi fuel (.node l a b m s h (.node rl ra rb rm rs rh rr)) ctx

/-! ### The comparator (`interval_tree_cmp`)

`interval_type_t` is the module's unsigned 32-bit endpoint type (its typedef
lives in the header, outside `src/`).  The C code computes
`int cmp = (int)(lhs->low - rhs->low)`: a wrap-around unsigned subtraction
reinterpreted as a signed 32-bit value.  We model that arithmetic exactly. -/

/-- Unsigned 32-bit subtraction `a - b` (wrap-around). -/
def usub32 (a b : Nat) : Nat := (a + (2 ^ 32 - b % 2 ^ 32)) % 2 ^ 32

/-- Reinterpret an unsigned 32-bit value as a signed `int` (two's
complement). -/
def toInt32 (x : Nat) : Int :=
  if x % 2 ^ 32 < 2 ^ 31 then ((x % 2 ^ 32 : Nat) : Int)
  else ((x % 2 ^ 32 : Nat) : Int) - 2 ^ 32

/-- `interval_tree_cmp`: three-way comparison computed by casted unsigned
subtraction, `low` first, then `high`. -/
def interval_tree_cmp (lhs rhs : Nat × Nat) : Int :=
  let c := toInt32 (usub32 lhs.1 rhs.1)
  if c = 0 then toInt32 (usub32 lhs.2 rhs.2) else c

/-! ### Signed instantiation of the augmentation bookkeeping

The spec's data model admits "any totally ordered numeric type" for the
endpoints.  The following instantiates `interval_tree_node_max` and
`interval_tree_fix_counts` at a signed endpoint type, keeping the literal `0`
the C code uses for absent children. -/

/-- Tree shape with signed endpoints: `node l low high max size height r`. -/
inductive ZTree : Type where
  | leaf : ZTree
  | node : ZTree → Int → Int → Int → Nat → Nat → ZTree → ZTree
deriving DecidableEq

/-- `interval_tree_node_max` at a signed endpoint type: still `0` for an
absent child. -/
def nodeMaxZ : ZTree → Int
  | .leaf => 0
  | .node _ _ _ m _ _ _ => m

/-- `interval_tree_node_size` for the signed instantiation. -/
def nodeSizeZ : ZTree → Nat
  | .leaf => 0
  | .node _ _ _ _ s _ _ => s

/-- `interval_tree_node_height` for the signed instantiation. -/
def nodeHeightZ : ZTree → Nat
  | .leaf => 0
  | .node _ _ _ _ _ h _ => h

/-- `interval_tree_fix_counts` at a signed endpoint type. -/
def fixCountsZ : ZTree → ZTree
  | .leaf => .leaf
  | .node l a b _ _ _ r =>
      .node l a b (max (max b (nodeMaxZ l)) (nodeMaxZ r))
        (1 + nodeSizeZ l + nodeSizeZ r)
        (1 + max (nodeHeightZ l) (nodeHeightZ r)) r

/-- The high endpoints stored in a signed tree, in order. -/
def highsZ : ZTree → List Int
  | .leaf => []
  | .node l _ b _ _ _ r => highsZ l ++ b :: highsZ r

/-- Augmentation-consistency for the signed instantiation, with the same
`0`-for-absent convention the code uses. -/
def augOkZ : ZTree → Bool
  | .leaf => true
  | .node l _ b m s h r =>
      augOkZ l && augOkZ r &&
      (m == max (max b (nodeMaxZ l)) (nodeMaxZ r)) &&
      (s == 1 + nodeSizeZ l + nodeSizeZ r) &&
      (h == 1 + max (nodeHeightZ l) (nodeHeightZ r))

/-! ## Basic lemmas about the invariants -/

theorem pairLtB_trans {x y z : Nat × Nat} (h1 : pairLtB x y = true)
    (h2 : pairLtB y z = true) : pairLtB x z = true := by
  simp only [pairLtB, Bool.or_eq_true, Bool.and_eq_true, decide_eq_true_eq] at *
  omega

theorem pairLtB_le1 {x y : Nat × Nat} (h : pairLtB x y = true) : x.1 ≤ y.1 := by
  simp only [pairLtB, Bool.or_eq_true, Bool.and_eq_true, decide_eq_true_eq] at h
  omega

theorem intersects_iff {lo hi : Nat} {x : Nat × Nat} :
    intersects lo hi x = true ↔ x.1 ≤ hi ∧ lo ≤ x.2 := by
  simp [intersects]

theorem intersects_false_iff {lo hi : Nat} {x : Nat × Nat} :
    intersects lo hi x = false ↔ (hi < x.1 ∨ x.2 < lo) := by
  simp [intersects]; omega

theorem bstOk_node {l r : ITree} {a b m s h : Nat}
    (hb : bstOk (.node l a b m s h r) = true) :
    bstOk l = true ∧ bstOk r = true ∧
      (∀ x ∈ inorder l, pairLtB x (a, b) = true) ∧
      (∀ x ∈ inorder r, pairLtB (a, b) x = true) := by
  simp only [bstOk, Bool.and_eq_true, List.all_eq_true] at hb
  tauto

theorem augOk_node {l r : ITree} {a b m s h : Nat}
    (ha : augOk (.node l a b m s h r) = true) :
    augOk l = true ∧ augOk r = true ∧
      m = max (max b (nodeMax l)) (nodeMax r) ∧
      s = 1 + nodeSize l + nodeSize r ∧
      h = 1 + max (nodeHeight l) (nodeHeight r) := by
  simp only [augOk, Bool.and_eq_true, beq_iff_eq] at ha
  tauto

theorem nodeMax_node {l r : ITree} {a b m s h : Nat} :
    nodeMax (.node l a b m s h r) = m := rfl

theorem mem_inorder_left {l r : ITree} {a b m s h : Nat} {x : Nat × Nat}
    (hx : x ∈ inorder l) : x ∈ inorder (.node l a b m s h r) := by
  simp only [inorder, List.mem_append]
  exact Or.inl hx

theorem mem_inorder_right {l r : ITree} {a b m s h : Nat} {x : Nat × Nat}
    (hx : x ∈ inorder r) : x ∈ inorder (.node l a b m s h r) := by
  simp only [inorder, List.mem_append, List.mem_cons]
  exact Or.inr (Or.inr hx)

theorem self_mem_inorder {l r : ITree} {a b m s h : Nat} :
    (a, b) ∈ inorder (.node l a b m s h r) := by
  simp [inorder]

theorem high_le_nodeMax {t : ITree} (ha : augOk t = true) :
    ∀ x ∈ inorder t, x.2 ≤ nodeMax t := by
  induction t with
  | leaf => intro x hx; simp [inorder] at hx
  | node l a b m s h r ihl ihr =>
    intro x hx
    obtain ⟨hal, har, hm, -, -⟩ := augOk_node ha
    simp only [inorder, List.mem_append, List.mem_cons] at hx
    rw [nodeMax_node, hm]
    rcases hx with hx | hx | hx
    · have := ihl hal x hx; omega
    · have hx2 : x.2 = b := by rw [hx]
      omega
    · have := ihr har x hx; omega

theorem nodeMax_attained {t : ITree} (ha : augOk t = true) (hne : t ≠ .leaf) :
    ∃ x ∈ inorder t, nodeMax t ≤ x.2 := by
  induction t with
  | leaf => exact absurd rfl hne
  | node l a b m s h r ihl ihr =>
    obtain ⟨hal, har, hm, -, -⟩ := augOk_node ha
    have hmem : (a, b) ∈ inorder (ITree.node l a b m s h r) := self_mem_inorder
    have hml : nodeMax l = 0 ∨
        ∃ x ∈ inorder (ITree.node l a b m s h r), nodeMax l ≤ x.2 := by
      cases l with
      | leaf => exact Or.inl rfl
      | node l1 a1 b1 m1 s1 h1 r1 =>
        obtain ⟨x, hx, hx2⟩ := ihl hal (by simp)
        exact Or.inr ⟨x, mem_inorder_left hx, hx2⟩
    have hmr : nodeMax r = 0 ∨
        ∃ x ∈ inorder (ITree.node l a b m s h r), nodeMax r ≤ x.2 := by
      cases r with
      | leaf => exact Or.inl rfl
      | node l1 a1 b1 m1 s1 h1 r1 =>
        obtain ⟨x, hx, hx2⟩ := ihr har (by simp)
        exact Or.inr ⟨x, mem_inorder_right hx, hx2⟩
    rw [nodeMax_node, hm]
    have hab2 : ((a, b) : Nat × Nat).2 = b := rfl
    rcases hml with hml | ⟨xl, hxl, hxl2⟩ <;> rcases hmr with hmr | ⟨xr, hxr, hxr2⟩
    · exact ⟨(a, b), hmem, by omega⟩
    · rcases Nat.le_total (nodeMax r) b with hcmp | hcmp
      · exact ⟨(a, b), hmem, by omega⟩
      · exact ⟨xr, hxr, by omega⟩
    · rcases Nat.le_total (nodeMax l) b with hcmp | hcmp
      · exact ⟨(a, b), hmem, by omega⟩
      · exact ⟨xl, hxl, by omega⟩
    · rcases Nat.le_total (nodeMax l) (nodeMax r) with hcmp | hcmp
      · rcases Nat.le_total (nodeMax r) b with hcmp2 | hcmp2
        · exact ⟨(a, b), hmem, by omega⟩
        · exact ⟨xr, hxr, by omega⟩
      · rcases Nat.le_total (nodeMax l) b with hcmp2 | hcmp2
        · exact ⟨(a, b), hmem, by omega⟩
        · exact ⟨xl, hxl, by omega⟩

/-- If the `condLeft` guard fires, the subtree it guards holds no overlapping
interval: its `max` (an upper bound of all highs) is below `lo`. -/
theorem condLeft_no_match {l : ITree} {lo hi : Nat} (ha : augOk l = true)
    (hc : condLeft l lo = true) :
    ∀ x ∈ inorder l, intersects lo hi x = false := by
  intro x hx
  cases l with
  | leaf => simp [inorder] at hx
  | node l1 a1 b1 m1 s1 h1 r1 =>
    have hb := high_le_nodeMax ha x hx
    simp only [condLeft, decide_eq_true_eq] at hc
    simp only [nodeMax] at hb
    rw [intersects_false_iff]
    omega

/-- If the `condLeft` guard does not fire but the left subtree holds no
overlapping interval, the subtree contains a witness whose `low` exceeds the
query's `hi` — so nothing at or to the right of the parent can overlap
either. -/
theorem left_blocked_witness {l : ITree} {lo hi : Nat} (ha : augOk l = true)
    (hc : condLeft l lo = false)
    (hnone : ∀ x ∈ inorder l, intersects lo hi x = false) :
    ∃ w ∈ inorder l, hi < w.1 := by
  cases l with
  | leaf => simp [condLeft] at hc
  | node l1 a1 b1 m1 s1 h1 r1 =>
    simp only [condLeft, decide_eq_false_iff_not, Nat.not_lt] at hc
    obtain ⟨w, hw, hw2⟩ := nodeMax_attained ha (by simp)
    refine ⟨w, hw, ?_⟩
    have hcontra := hnone w hw
    rw [intersects_false_iff] at hcontra
    simp only [nodeMax] at hw2
    omega

theorem bstOk_pairwise {t : ITree} (hb : bstOk t = true) :
    List.Pairwise (fun x y => pairLtB x y = true) (inorder t) := by
  induction t with
  | leaf => simp [inorder]
  | node l a b m s h r ihl ihr =>
    obtain ⟨hbl, hbr, hlt, hgt⟩ := bstOk_node hb
    simp only [inorder]
    rw [List.pairwise_append]
    refine ⟨ihl hbl, ?_, ?_⟩
    · rw [List.pairwise_cons]
      exact ⟨hgt, ihr hbr⟩
    · intro x hx y hy
      rcases List.mem_cons.mp hy with rfl | hy
      · exact hlt x hx
      · exact pairLtB_trans (hlt x hx) (hgt y hy)

theorem filter_nil_iff_false {α : Type} {p : α → Bool} {l : List α} :
    l.filter p = [] ↔ ∀ x ∈ l, p x = false := by
  induction l with
  | nil => simp
  | cons x xs ih =>
    rw [List.filter_cons]
    cases hx : p x with
    | true => simp [hx]
    | false => simp [hx, ih]

/-! ## Correctness of the `min_interval` walk

On a consistent subtree, `minGo` returns `best` when the subtree holds no
overlapping interval, and otherwise a position at the in-order-first
overlapping interval, from which the in-order successors' matches are exactly
the remaining matches. -/

theorem minGo_spec {lo hi : Nat} (t : ITree) :
    ∀ (ctx : Ctx) (best : Option Pos),
      bstOk t = true → augOk t = true → ctxOkB ctx = true →
      (((inorder t).filter (intersects lo hi) = [] →
          minGo lo hi t ctx best = best) ∧
       (∀ d rest, (inorder t).filter (intersects lo hi) = d :: rest →
          ∃ q : Pos, minGo lo hi t ctx best = some q ∧ q.data = d ∧
            posOkB q = true ∧
            (afterL q).filter (intersects lo hi) =
              rest ++ (ctxAfter ctx).filter (intersects lo hi))) := by
  induction t with
  | leaf =>
    intro ctx best _ _ _
    exact ⟨fun _ => rfl, fun d rest hd => by simp [inorder] at hd⟩
  | node l a b m s h r ihl ihr =>
    intro ctx best hb ha hctx
    obtain ⟨hbl, hbr, hlt, hgt⟩ := bstOk_node hb
    obtain ⟨hal, har, -, -, -⟩ := augOk_node ha
    have hfilter : (inorder (ITree.node l a b m s h r)).filter (intersects lo hi)
        = (inorder l).filter (intersects lo hi) ++
          ((a, b) :: inorder r).filter (intersects lo hi) := by
      simp only [inorder, List.filter_append]
    cases hC : condLeft l lo with
    | true =>
      have hlnone := @condLeft_no_match l lo hi hal hC
      have hfl : (inorder l).filter (intersects lo hi) = [] :=
        filter_nil_iff_false.mpr hlnone
      cases hI : intersects lo hi (a, b) with
      | true =>
        have heq : minGo lo hi (.node l a b m s h r) ctx best
            = some ⟨l, a, b, m, s, h, r, ctx⟩ := by
          simp [minGo, hC, hI]
        constructor
        · intro h0
          rw [hfilter, hfl, List.nil_append, List.filter_cons, hI] at h0
          simp at h0
        · intro d rest hd
          rw [hfilter, hfl, List.nil_append, List.filter_cons, hI] at hd
          simp only [if_true] at hd
          injection hd with hd1 hd2
          refine ⟨⟨l, a, b, m, s, h, r, ctx⟩, heq, hd1, ?_, ?_⟩
          · simp [posOkB, hbr, har, hctx]
          · show (inorder r ++ ctxAfter ctx).filter (intersects lo hi) = _
            rw [List.filter_append, hd2]
      | false =>
        have heq : minGo lo hi (.node l a b m s h r) ctx best
            = minGo lo hi r (.right l a b m s h :: ctx) best := by
          simp [minGo, hC, hI]
        have hctx' : ctxOkB (.right l a b m s h :: ctx) = true := by
          simp [ctxOkB, frameOkB] at hctx ⊢
          exact hctx
        have hfr : (inorder (ITree.node l a b m s h r)).filter (intersects lo hi)
            = (inorder r).filter (intersects lo hi) := by
          rw [hfilter, hfl, List.nil_append, List.filter_cons, hI]
          simp
        obtain ⟨ih1, ih2⟩ := ihr (.right l a b m s h :: ctx) best hbr har hctx'
        constructor
        · intro h0
          rw [hfr] at h0
          rw [heq]
          exact ih1 h0
        · intro d rest hd
          rw [hfr] at hd
          obtain ⟨q, hq, hqd, hqok, hqa⟩ := ih2 d rest hd
          exact ⟨q, heq ▸ hq, hqd, hqok, hqa⟩
    | false =>
      have hctx' : ctxOkB (.left a b m s h r :: ctx) = true := by
        simp [ctxOkB, frameOkB] at hctx ⊢
        exact ⟨⟨hbr, har⟩, hctx⟩
      have hca' : ctxAfter (.left a b m s h r :: ctx)
          = (a, b) :: inorder r ++ ctxAfter ctx := rfl
      cases hI : intersects lo hi (a, b) with
      | true =>
        have heq : minGo lo hi (.node l a b m s h r) ctx best
            = minGo lo hi l (.left a b m s h r :: ctx)
                (some ⟨l, a, b, m, s, h, r, ctx⟩) := by
          simp [minGo, hC, hI]
        obtain ⟨ih1, ih2⟩ := ihl (.left a b m s h r :: ctx)
          (some ⟨l, a, b, m, s, h, r, ctx⟩) hbl hal hctx'
        cases hfl : (inorder l).filter (intersects lo hi) with
        | nil =>
          have hret : minGo lo hi (.node l a b m s h r) ctx best
              = some ⟨l, a, b, m, s, h, r, ctx⟩ := by
            rw [heq]; exact ih1 hfl
          constructor
          · intro h0
            rw [hfilter, hfl, List.nil_append, List.filter_cons, hI] at h0
            simp at h0
          · intro d rest hd
            rw [hfilter, hfl, List.nil_append, List.filter_cons, hI] at hd
            simp only [if_true] at hd
            injection hd with hd1 hd2
            refine ⟨⟨l, a, b, m, s, h, r, ctx⟩, hret, hd1, ?_, ?_⟩
            · simp [posOkB, hbr, har, hctx]
            · show (inorder r ++ ctxAfter ctx).filter (intersects lo hi) = _
              rw [List.filter_append, hd2]
        | cons dl restl =>
          obtain ⟨q, hq, hqd, hqok, hqa⟩ := ih2 dl restl hfl
          have hcons : (inorder (ITree.node l a b m s h r)).filter (intersects lo hi)
              = dl :: (restl ++ ((a, b) :: inorder r).filter (intersects lo hi)) := by
            rw [hfilter, hfl]; rfl
          constructor
          · intro h0
            rw [hcons] at h0
            simp at h0
          · intro d rest hd
            rw [hcons] at hd
            injection hd with hd1 hd2
            refine ⟨q, heq ▸ hq, hd1 ▸ hqd, hqok, ?_⟩
            rw [hqa, hca', ← hd2]
            simp [List.filter_cons, List.filter_append, hI, List.append_assoc]
      | false =>
        have heq : minGo lo hi (.node l a b m s h r) ctx best
            = minGo lo hi l (.left a b m s h r :: ctx) best := by
          simp [minGo, hC, hI]
        obtain ⟨ih1, ih2⟩ := ihl (.left a b m s h r :: ctx) best hbl hal hctx'
        cases hfl : (inorder l).filter (intersects lo hi) with
        | nil =>
          have hlnone : ∀ x ∈ inorder l, intersects lo hi x = false :=
            filter_nil_iff_false.mp hfl
          obtain ⟨w, hw, hwhi⟩ := left_blocked_witness hal hC hlnone
          have hwa : w.1 ≤ a := pairLtB_le1 (hlt w hw)
          have hfr : ∀ x ∈ inorder r, intersects lo hi x = false := by
            intro x hx
            have : a ≤ x.1 := pairLtB_le1 (hgt x hx)
            rw [intersects_false_iff]
            omega
          have hfnode : (inorder (ITree.node l a b m s h r)).filter (intersects lo hi)
              = [] := by
            rw [hfilter, hfl, List.nil_append, List.filter_cons, hI]
            simp only [Bool.false_eq_true, if_false]
            exact filter_nil_iff_false.mpr hfr
          constructor
          · intro _
            rw [heq]
            exact ih1 hfl
          · intro d rest hd
            rw [hfnode] at hd
            simp at hd
        | cons dl restl =>
          obtain ⟨q, hq, hqd, hqok, hqa⟩ := ih2 dl restl hfl
          have hcons : (inorder (ITree.node l a b m s h r)).filter (intersects lo hi)
              = dl :: (restl ++ ((a, b) :: inorder r).filter (intersects lo hi)) := by
            rw [hfilter, hfl]; rfl
          constructor
          · intro h0
            rw [hcons] at h0
            simp at h0
          · intro d rest hd
            rw [hcons] at hd
            injection hd with hd1 hd2
            refine ⟨q, heq ▸ hq, hd1 ▸ hqd, hqok, ?_⟩
            rw [hqa, hca', ← hd2]
            simp [List.filter_cons, List.filter_append, hI, List.append_assoc]

theorem ctxOkB_cons {f : Frame} {ctx : Ctx} :
    ctxOkB (f :: ctx) = (frameOkB f && ctxOkB ctx) := by
  simp [ctxOkB]

/-! ## Correctness of the climbing phase of `next_interval`

Climbing from a completed subtree, `nextUp` returns the position of the first
overlapping interval among the in-order elements situated after the focus, or
`none` when no such element overlaps. -/

theorem nextUp_spec {lo hi : Nat} :
    ∀ (ctx : Ctx) (t : ITree), ctxOkB ctx = true →
      (((ctxAfter ctx).filter (intersects lo hi) = [] → nextUp lo hi t ctx = none) ∧
       (∀ d rest, (ctxAfter ctx).filter (intersects lo hi) = d :: rest →
          ∃ q : Pos, nextUp lo hi t ctx = some q ∧ q.data = d ∧ posOkB q = true ∧
            (afterL q).filter (intersects lo hi) = rest)) := by
  intro ctx
  induction ctx with
  | nil =>
    intro t _
    exact ⟨fun _ => rfl, fun d rest hd => by simp [ctxAfter] at hd⟩
  | cons f ctx ih =>
    intro t hctx
    rw [ctxOkB_cons, Bool.and_eq_true] at hctx
    obtain ⟨hf, hctx'⟩ := hctx
    cases f with
    | right l a b m s h =>
      have hca : ctxAfter (.right l a b m s h :: ctx) = ctxAfter ctx := rfl
      have heq : nextUp lo hi t (.right l a b m s h :: ctx)
          = nextUp lo hi (.node l a b m s h t) ctx := rfl
      rw [hca, heq]
      exact ih (.node l a b m s h t) hctx'
    | left a b m s h r =>
      obtain ⟨hbr, har⟩ : bstOk r = true ∧ augOk r = true := by
        simpa [frameOkB] using hf
      have hca : ctxAfter (.left a b m s h r :: ctx)
          = (a, b) :: (inorder r ++ ctxAfter ctx) := rfl
      cases hI : intersects lo hi (a, b) with
      | true =>
        have heq : nextUp lo hi t (.left a b m s h r :: ctx)
            = some ⟨t, a, b, m, s, h, r, ctx⟩ := by
          simp [nextUp, hI]
        constructor
        · intro h0
          rw [hca] at h0
          simp [List.filter_cons, hI] at h0
        · intro d rest hd
          rw [hca, List.filter_cons, hI] at hd
          simp only [if_true] at hd
          injection hd with hd1 hd2
          refine ⟨⟨t, a, b, m, s, h, r, ctx⟩, heq, hd1, ?_, ?_⟩
          · simp [posOkB, hbr, har, hctx']
          · show (inorder r ++ ctxAfter ctx).filter (intersects lo hi) = _
            rw [hd2]
      | false =>
        cases r with
        | leaf =>
          have heq : nextUp lo hi t (.left a b m s h .leaf :: ctx)
              = nextUp lo hi (.node t a b m s h .leaf) ctx := by
            simp [nextUp, hI]
          have hca2 : (ctxAfter (.left a b m s h .leaf :: ctx)).filter (intersects lo hi)
              = (ctxAfter ctx).filter (intersects lo hi) := by
            rw [hca]
            simp [List.filter_cons, hI, inorder]
          rw [hca2, heq]
          exact ih (.node t a b m s h .leaf) hctx'
        | node rl ra rb rm rs rh rr =>
          have hctx'' : ctxOkB (.right t a b m s h :: ctx) = true := by
            rw [ctxOkB_cons, Bool.and_eq_true]
            exact ⟨rfl, hctx'⟩
          obtain ⟨m1, m2⟩ := minGo_spec (.node rl ra rb rm rs rh rr)
            (.right t a b m s h :: ctx) none hbr har hctx''
          have hcafr : (ctxAfter (.left a b m s h (.node rl ra rb rm rs rh rr) :: ctx)).filter
                (intersects lo hi)
              = (inorder (ITree.node rl ra rb rm rs rh rr)).filter (intersects lo hi) ++
                (ctxAfter ctx).filter (intersects lo hi) := by
            rw [hca]
            simp [List.filter_cons, hI, List.filter_append]
          cases hfrt : (inorder (ITree.node rl ra rb rm rs rh rr)).filter (intersects lo hi) with
          | nil =>
            have hnone : minGo lo hi (.node rl ra rb rm rs rh rr)
                (.right t a b m s h :: ctx) none = none := m1 hfrt
            have heq : nextUp lo hi t (.left a b m s h (.node rl ra rb rm rs rh rr) :: ctx)
                = nextUp lo hi (.node t a b m s h (.node rl ra rb rm rs rh rr)) ctx := by
              simp [nextUp, hI, hnone]
            rw [hcafr, hfrt, List.nil_append, heq]
            exact ih (.node t a b m s h (.node rl ra rb rm rs rh rr)) hctx'
          | cons d0 rest0 =>
            obtain ⟨q, hq, hqd, hqok, hqa⟩ := m2 d0 rest0 hfrt
            have heq : nextUp lo hi t (.left a b m s h (.node rl ra rb rm rs rh rr) :: ctx)
                = some q := by
              simp [nextUp, hI, hq]
            have hqa' : (afterL q).filter (intersects lo hi)
                = rest0 ++ (ctxAfter ctx).filter (intersects lo hi) := hqa
            constructor
            · intro h0
              rw [hcafr, hfrt] at h0
              simp at h0
            · intro d rest hd
              rw [hcafr, hfrt] at hd
              rw [List.cons_append] at hd
              injection hd with hd1 hd2
              exact ⟨q, heq, hd1 ▸ hqd, hqok, by rw [hqa', hd2]⟩

/-- One outer-loop entry of `next_interval` from a valid position: it returns
the position of the first overlapping interval among the current node's strict
in-order successors, or `none` when none of them overlaps. -/
theorem nextStep_spec {lo hi : Nat} (p : Pos) (hok : posOkB p = true) :
    ((afterL p).filter (intersects lo hi) = [] →
        nextStep lo hi p.tree p.ctx = none) ∧
    (∀ d rest, (afterL p).filter (intersects lo hi) = d :: rest →
        ∃ q : Pos, nextStep lo hi p.tree p.ctx = some q ∧ q.data = d ∧
          posOkB q = true ∧ (afterL q).filter (intersects lo hi) = rest) := by
  obtain ⟨l, a, b, m, s, h, r, ctx⟩ := p
  simp only [posOkB, Bool.and_eq_true] at hok
  obtain ⟨⟨hbr, har⟩, hctx⟩ := hok
  have hafter : afterL ⟨l, a, b, m, s, h, r, ctx⟩ = inorder r ++ ctxAfter ctx := rfl
  cases r with
  | leaf =>
    have heq : nextStep lo hi (Pos.tree ⟨l, a, b, m, s, h, .leaf, ctx⟩) ctx
        = nextUp lo hi (.node l a b m s h .leaf) ctx := rfl
    have hca2 : (afterL ⟨l, a, b, m, s, h, ITree.leaf, ctx⟩).filter (intersects lo hi)
        = (ctxAfter ctx).filter (intersects lo hi) := by
      rw [hafter]
      simp [inorder]
    rw [hca2, heq]
    exact nextUp_spec ctx (.node l a b m s h .leaf) hctx
  | node rl ra rb rm rs rh rr =>
    have hctx'' : ctxOkB (.right l a b m s h :: ctx) = true := by
      rw [ctxOkB_cons, Bool.and_eq_true]
      exact ⟨rfl, hctx⟩
    obtain ⟨m1, m2⟩ := minGo_spec (.node rl ra rb rm rs rh rr)
      (.right l a b m s h :: ctx) none hbr har hctx''
    have hsplit : (afterL ⟨l, a, b, m, s, h, ITree.node rl ra rb rm rs rh rr, ctx⟩).filter
          (intersects lo hi)
        = (inorder (ITree.node rl ra rb rm rs rh rr)).filter (intersects lo hi) ++
          (ctxAfter ctx).filter (intersects lo hi) := by
      rw [hafter, List.filter_append]
    cases hfrt : (inorder (ITree.node rl ra rb rm rs rh rr)).filter (intersects lo hi) with
    | nil =>
      have hnone : minGo lo hi (.node rl ra rb rm rs rh rr)
          (.right l a b m s h :: ctx) none = none := m1 hfrt
      have heq : nextStep lo hi (Pos.tree ⟨l, a, b, m, s, h, .node rl ra rb rm rs rh rr, ctx⟩) ctx
          = nextUp lo hi (.node l a b m s h (.node rl ra rb rm rs rh rr)) ctx := by
        simp [nextStep, Pos.tree, hnone]
      rw [hsplit, hfrt, List.nil_append, heq]
      exact nextUp_spec ctx (.node l a b m s h (.node rl ra rb rm rs rh rr)) hctx
    | cons d0 rest0 =>
      obtain ⟨q, hq, hqd, hqok, hqa⟩ := m2 d0 rest0 hfrt
      have heq : nextStep lo hi (Pos.tree ⟨l, a, b, m, s, h, .node rl ra rb rm rs rh rr, ctx⟩) ctx
          = some q := by
        simp [nextStep, Pos.tree, hq]
      have hqa' : (afterL q).filter (intersects lo hi)
          = rest0 ++ (ctxAfter ctx).filter (intersects lo hi) := hqa
      constructor
      · intro h0
        rw [hsplit, hfrt] at h0
        simp at h0
      · intro d rest hd
        rw [hsplit, hfrt, List.cons_append] at hd
        injection hd with hd1 hd2
        exact ⟨q, heq, hd1 ▸ hqd, hqok, by rw [hqa', hd2]⟩

theorem iterSeq_none {lo hi : Nat} {fuel : Nat} :
    iterSeq fuel ⟨lo, hi, none⟩ = [] := by
  cases fuel <;> rfl

/-- Collecting the iterator from a valid position yields the current interval
followed by exactly the overlapping intervals among its in-order
successors. -/
theorem iterSeq_collect {lo hi : Nat} :
    ∀ (rest : List (Nat × Nat)) (q : Pos) (fuel : Nat),
      posOkB q = true →
      (afterL q).filter (intersects lo hi) = rest →
      rest.length < fuel →
      iterSeq fuel ⟨lo, hi, some q⟩ = q.data :: rest := by
  intro rest
  induction rest with
  | nil =>
    intro q fuel hok hf hfuel
    obtain ⟨s1, -⟩ := nextStep_spec q hok
    cases fuel with
    | zero => omega
    | succ fuel =>
      have hnone := s1 hf
      have hstep : iterSeq (fuel + 1) ⟨lo, hi, some q⟩
          = q.data :: iterSeq fuel ⟨lo, hi, none⟩ := by
        simp [iterSeq, interval_tree_iter_next, nextInterval, hnone]
      rw [hstep, iterSeq_none]
  | cons d rest ih =>
    intro q fuel hok hf hfuel
    obtain ⟨-, s2⟩ := nextStep_spec q hok
    obtain ⟨q', hq', hd', hok', hf'⟩ := s2 d rest hf
    cases fuel with
    | zero => omega
    | succ fuel =>
      have hstep : iterSeq (fuel + 1) ⟨lo, hi, some q⟩
          = q.data :: iterSeq fuel ⟨lo, hi, some q'⟩ := by
        simp [iterSeq, interval_tree_iter_next, nextInterval, hq']
      rw [hstep, ih q' fuel hok' hf' (by simp at hfuel ⊢; omega), hd']

/-- C1: for every tree satisfying the BST-ordering and
augmentation-consistency invariants and every query bounds `lo ≤ hi`, the
sequence produced by the iterator (`iter_first` followed by repeated
`iter_next` until none) equals, element for element and in ascending
`(low, high)` order, the brute-force linear filter of the stored intervals by
the overlap predicate. -/
theorem c1_iterate_eq_brute_force (t : RBTree) (lo hi : Nat)
    (hb : bstOk t.root = true) (ha : augOk t.root = true) (hlohi : lo ≤ hi) :
    iterSeq ((inorder t.root).length + 1) (interval_tree_iter_first t lo hi)
      = (inorder t.root).filter (intersects lo hi) ∧
    List.Pairwise (fun x y => pairLtB x y = true)
      ((inorder t.root).filter (intersects lo hi)) := by
  have hpair : List.Pairwise (fun x y => pairLtB x y = true)
      ((inorder t.root).filter (intersects lo hi)) :=
    List.Pairwise.sublist (List.filter_sublist _) (bstOk_pairwise hb)
  refine ⟨?_, hpair⟩
  obtain ⟨m1, m2⟩ := @minGo_spec lo hi t.root [] none hb ha (by simp [ctxOkB])
  cases hF : (inorder t.root).filter (intersects lo hi) with
  | nil =>
    have hfirst : interval_tree_iter_first t lo hi = ⟨lo, hi, none⟩ := by
      simp [interval_tree_iter_first, m1 hF]
    rw [hfirst, iterSeq_none]
  | cons d rest =>
    obtain ⟨q, hq, hqd, hqok, hqa⟩ := m2 d rest hF
    have hfirst : interval_tree_iter_first t lo hi = ⟨lo, hi, some q⟩ := by
      simp [interval_tree_iter_first, hq]
    have hqa' : (afterL q).filter (intersects lo hi) = rest := by
      rw [hqa]; simp [ctxAfter]
    have hlen : rest.length < (inorder t.root).length + 1 := by
      have h1 : (d :: rest).length ≤ (inorder t.root).length := by
        rw [← hF]; exact List.length_filter_le _ _
      simp at h1
      omega
    rw [hfirst, iterSeq_collect rest q _ hqok hqa' hlen, hqd]

/-! ## Correctness of `interval_tree_find` -/

theorem findGo_spec {lo hi : Nat} (t : ITree) (hb : bstOk t = true)
    (ha : augOk t = true) :
    ((findGo lo hi t).isSome = true ↔ ∃ x ∈ inorder t, intersects lo hi x = true) ∧
    (∀ p, findGo lo hi t = some p → intersects lo hi p = true ∧ p ∈ inorder t) := by
  induction t with
  | leaf =>
    constructor
    · simp [findGo, inorder]
    · intro p hp; simp [findGo] at hp
  | node l a b m s h r ihl ihr =>
    obtain ⟨hbl, hbr, hlt, hgt⟩ := bstOk_node hb
    obtain ⟨hal, har, -, -, -⟩ := augOk_node ha
    cases hI : intersects lo hi (a, b) with
    | true =>
      have heq : findGo lo hi (.node l a b m s h r) = some (a, b) := by
        simp [findGo, hI]
      constructor
      · simp only [heq, Option.isSome_some, true_iff]
        exact ⟨(a, b), self_mem_inorder, hI⟩
      · intro p hp
        rw [heq] at hp
        injection hp with hp
        subst hp
        exact ⟨hI, self_mem_inorder⟩
    | false =>
      cases hC : condLeft l lo with
      | true =>
        have heq : findGo lo hi (.node l a b m s h r) = findGo lo hi r := by
          simp [findGo, hI, hC]
        have hlnone := @condLeft_no_match l lo hi hal hC
        obtain ⟨ih1, ih2⟩ := ihr hbr har
        constructor
        · rw [heq, ih1]
          constructor
          · rintro ⟨x, hx, hxI⟩
            exact ⟨x, mem_inorder_right hx, hxI⟩
          · rintro ⟨x, hx, hxI⟩
            simp only [inorder, List.mem_append, List.mem_cons] at hx
            rcases hx with hx | hx | hx
            · rw [hlnone x hx] at hxI; cases hxI
            · subst hx; rw [hI] at hxI; cases hxI
            · exact ⟨x, hx, hxI⟩
        · intro p hp
          rw [heq] at hp
          obtain ⟨h1, h2⟩ := ih2 p hp
          exact ⟨h1, mem_inorder_right h2⟩
      | false =>
        have heq : findGo lo hi (.node l a b m s h r) = findGo lo hi l := by
          simp [findGo, hI, hC]
        obtain ⟨ih1, ih2⟩ := ihl hbl hal
        constructor
        · rw [heq, ih1]
          constructor
          · rintro ⟨x, hx, hxI⟩
            exact ⟨x, mem_inorder_left hx, hxI⟩
          · rintro ⟨x, hx, hxI⟩
            cases hfl : (inorder l).filter (intersects lo hi) with
            | nil =>
              have hlnone : ∀ y ∈ inorder l, intersects lo hi y = false :=
                filter_nil_iff_false.mp hfl
              obtain ⟨w, hw, hwhi⟩ := left_blocked_witness hal hC hlnone
              have hwa : w.1 ≤ a := pairLtB_le1 (hlt w hw)
              exfalso
              simp only [inorder, List.mem_append, List.mem_cons] at hx
              rcases hx with hx | hx | hx
              · rw [hlnone x hx] at hxI; cases hxI
              · subst hx; rw [hI] at hxI; cases hxI
              · have hax : a ≤ x.1 := pairLtB_le1 (hgt x hx)
                rw [intersects_iff] at hxI
                omega
            | cons w ws =>
              have hwmem : w ∈ (inorder l).filter (intersects lo hi) := by
                rw [hfl]; exact List.mem_cons_self w ws
              obtain ⟨hwin, hwI⟩ := List.mem_filter.mp hwmem
              exact ⟨w, hwin, hwI⟩
        · intro p hp
          rw [heq] at hp
          obtain ⟨h1, h2⟩ := ih2 p hp
          exact ⟨h1, mem_inorder_left h2⟩

/-- C3: for every tree satisfying the BST-ordering and
augmentation-consistency invariants and every query bounds `lo ≤ hi`, `find`
returns a node iff at least one stored interval overlaps `[lo, hi]`, and any
interval it returns is a stored interval that overlaps the query. -/
theorem c3_find_iff_overlap (t : RBTree) (lo hi : Nat)
    (hb : bstOk t.root = true) (ha : augOk t.root = true) (hlohi : lo ≤ hi) :
    ((interval_tree_find t lo hi).isSome = true ↔
        ∃ x ∈ inorder t.root, intersects lo hi x = true) ∧
    (∀ p, interval_tree_find t lo hi = some p →
        intersects lo hi p = true ∧ p ∈ inorder t.root) :=
  findGo_spec t.root hb ha

/-- C6: for every consistent subtree and query bounds `lo ≤ hi`,
`min_interval` returns the overlapping interval an in-order traversal of the
subtree meets first (the `(low, high)`-minimal overlapping interval), and
`none` exactly when no stored interval overlaps (an empty filter gives head
`none`). -/
theorem c6_min_interval_first (t : ITree) (lo hi : Nat)
    (hb : bstOk t = true) (ha : augOk t = true) (hlohi : lo ≤ hi) :
    (minGo lo hi t [] none).map Pos.data
      = ((inorder t).filter (intersects lo hi)).head? ∧
    (∀ q, minGo lo hi t [] none = some q →
      ∀ x ∈ inorder t, intersects lo hi x = true →
        q.data = x ∨ pairLtB q.data x = true) := by
  obtain ⟨m1, m2⟩ := @minGo_spec lo hi t [] none hb ha (by simp [ctxOkB])
  cases hF : (inorder t).filter (intersects lo hi) with
  | nil =>
    constructor
    · rw [m1 hF]; rfl
    · intro q hq
      rw [m1 hF] at hq
      cases hq
  | cons d rest =>
    obtain ⟨q, hq, hqd, -, -⟩ := m2 d rest hF
    constructor
    · rw [hq]; simp [hqd]
    · intro q' hq' x hx hxI
      rw [hq] at hq'
      injection hq' with hq'
      subst hq'
      have hxF : x ∈ (inorder t).filter (intersects lo hi) :=
        List.mem_filter.mpr ⟨hx, hxI⟩
      rw [hF] at hxF
      rcases List.mem_cons.mp hxF with rfl | hxF
      · exact Or.inl hqd
      · refine Or.inr ?_
        rw [hqd]
        have hpf : List.Pairwise (fun x y => pairLtB x y = true)
            ((inorder t).filter (intersects lo hi)) :=
          List.Pairwise.sublist (List.filter_sublist _) (bstOk_pairwise hb)
        rw [hF] at hpf
        exact (List.pairwise_cons.mp hpf).1 x hxF

/-! ## Concrete example trees -/

/-- The spec's worked example: intervals `[1,5]`, `[3,7]`, `[10,12]` in a
balanced consistent tree. -/
def exTree : RBTree :=
  ⟨.node (.node .leaf 1 5 5 1 1 .leaf) 3 7 12 3 2 (.node .leaf 10 12 12 1 1 .leaf)⟩

/-- Consistent tree with intervals `[3,8]`, `[5,6]`, `[7,9]` (root `[5,6]`). -/
def exTree2 : ITree :=
  .node (.node .leaf 3 8 8 1 1 .leaf) 5 6 9 3 2 (.node .leaf 7 9 9 1 1 .leaf)

/-- The position of the node `[3,8]` inside `exTree2`. -/
def exPos2 : Pos :=
  ⟨.leaf, 3, 8, 8, 1, 1, .leaf, [.left 5 6 9 3 2 (.node .leaf 7 9 9 1 1 .leaf)]⟩

/-- C2 is false of the code: in the consistent tree `exTree2` with query
`[7,8]`, the node `[3,8]` has an empty right subtree, the first ancestor
reached through a left-child edge is `[5,6]`, which does not overlap — the
claim then demands exhaustion, but `next` continues scanning and returns
`[7,9]`. -/
theorem c2_counterexample :
    bstOk exTree2 = true ∧ augOk exTree2 = true ∧
    plug exPos2.tree exPos2.ctx = exTree2 ∧
    exPos2.r = .leaf ∧
    intersects 7 8 (5, 6) = false ∧
    (nextStep 7 8 exPos2.tree exPos2.ctx).map Pos.data = some (7, 9) := by
  decide

/-- C2 (amended): when the current node's right subtree yields no match and
the parent climb reaches the first ancestor arrived at via a left-child edge:
if that ancestor overlaps the query it is returned; otherwise the scan
continues from that ancestor — `next()` returns the first overlapping
interval among the remaining in-order successors, and reports exhaustion
exactly when none of them overlaps. -/
theorem c2_amended (lo hi a b m s h : Nat) (r : ITree) (p : Pos) (ctx' : Ctx)
    (hok : posOkB p = true)
    (hctx : p.ctx = .left a b m s h r :: ctx')
    (hrnone : (inorder p.r).filter (intersects lo hi) = [])
    (hanc : intersects lo hi (a, b) = false) :
    (nextInterval lo hi (some p) = none ↔
        (afterL p).filter (intersects lo hi) = []) ∧
    (∀ d rest, (afterL p).filter (intersects lo hi) = d :: rest →
        (nextInterval lo hi (some p)).map Pos.data = some d) := by
  obtain ⟨s1, s2⟩ := @nextStep_spec lo hi p hok
  constructor
  · constructor
    · intro hnone
      cases hF : (afterL p).filter (intersects lo hi) with
      | nil => rfl
      | cons d rest =>
        obtain ⟨q, hq, -, -, -⟩ := s2 d rest hF
        rw [show nextInterval lo hi (some p) = nextStep lo hi p.tree p.ctx from rfl, hq]
          at hnone
        cases hnone
    · intro hF
      show nextStep lo hi p.tree p.ctx = none
      exact s1 hF
  · intro d rest hF
    obtain ⟨q, hq, hqd, -, -⟩ := s2 d rest hF
    show (nextStep lo hi p.tree p.ctx).map Pos.data = some d
    rw [hq]
    simp [hqd]

/-! ## Augmentation restoration (propagate and rotation fixup) -/

theorem fixCounts_aug {l r : ITree} {a b m s h : Nat}
    (hal : augOk l = true) (har : augOk r = true) :
    augOk (fixCounts (.node l a b m s h r)) = true := by
  simp [fixCounts, augOk, hal, har]

theorem childrenAug_node {l r : ITree} {a b m s h : Nat}
    (hch : childrenAug (.node l a b m s h r) = true) :
    augOk l = true ∧ augOk r = true := by
  simpa [childrenAug, Bool.and_eq_true] using hch

theorem fixCounts_aug_of_children {t : ITree} (hch : childrenAug t = true) :
    augOk (fixCounts t) = true := by
  cases t with
  | leaf => rfl
  | node l a b m s h r =>
    obtain ⟨hal, har⟩ := childrenAug_node hch
    exact fixCounts_aug hal har

/-- The propagate hook restores the augmentation invariant on the whole tree:
starting from a change point whose children are consistent, inside a context
whose hanging subtrees are all consistent, fixing counts from the change point
up to the root makes every node consistent. -/
theorem propagate_restores :
    ∀ (ctx : Ctx) (t : ITree), ctxAug ctx = true → childrenAug t = true →
      augOk (propagate t ctx) = true := by
  intro ctx
  induction ctx with
  | nil =>
    intro t _ hch
    exact fixCounts_aug_of_children hch
  | cons f ctx ih =>
    intro t hctx hch
    have hfix : augOk (fixCounts t) = true := fixCounts_aug_of_children hch
    show augOk (propagate (reassemble (fixCounts t) f) ctx) = true
    cases f with
    | left a b m s h r =>
      rw [show ctxAug (.left a b m s h r :: ctx) = (augOk r && ctxAug ctx) from rfl,
        Bool.and_eq_true] at hctx
      refine ih (reassemble (fixCounts t) (.left a b m s h r)) hctx.2 ?_
      show childrenAug (.node (fixCounts t) a b m s h r) = true
      simp [childrenAug, hfix, hctx.1]
    | right l a b m s h =>
      rw [show ctxAug (.right l a b m s h :: ctx) = (augOk l && ctxAug ctx) from rfl,
        Bool.and_eq_true] at hctx
      refine ih (reassemble (fixCounts t) (.right l a b m s h)) hctx.2 ?_
      show childrenAug (.node l a b m s h (fixCounts t)) = true
      simp [childrenAug, hfix, hctx.1]

theorem rotateLeftFixed_aug {α β γ : ITree} {a b m s h c d m2 s2 h2 : Nat}
    (hα : augOk α = true) (hβ : augOk β = true) (hγ : augOk γ = true) :
    augOk (rotateLeftFixed (.node α a b m s h (.node β c d m2 s2 h2 γ))) = true := by
  have h1 : augOk (fixCounts (.node α a b m s h β)) = true := fixCounts_aug hα hβ
  simp only [rotateLeftFixed]
  exact fixCounts_aug h1 hγ

theorem rotateRightFixed_aug {β γ α : ITree} {c d m2 s2 h2 a b m s h : Nat}
    (hβ : augOk β = true) (hγ : augOk γ = true) (hα : augOk α = true) :
    augOk (rotateRightFixed (.node (.node β c d m2 s2 h2 γ) a b m s h α)) = true := by
  have h1 : augOk (fixCounts (.node γ a b m s h α)) = true := fixCounts_aug hγ hα
  simp only [rotateRightFixed]
  exact fixCounts_aug hβ h1

/-- C4: after a completed insert or remove — the engine invoking the
propagate hook once from the changed node, and the rotation-fixup hook once
per rotation (old top, then new top, then the new top's parent) — every node
satisfies `max = max(high, children maxes)`, `size = 1 + children sizes` and
`height = 1 + max(children heights)`, absent children contributing 0. -/
theorem c4_augmentation_restored :
    (∀ (ctx : Ctx) (t : ITree), ctxAug ctx = true → childrenAug t = true →
        augOk (propagate t ctx) = true) ∧
    (∀ (α β γ : ITree) (a b m s h c d m2 s2 h2 : Nat),
        augOk α = true → augOk β = true → augOk γ = true →
        augOk (rotateLeftFixed (.node α a b m s h (.node β c d m2 s2 h2 γ))) = true) ∧
    (∀ (β γ α : ITree) (c d m2 s2 h2 a b m s h : Nat),
        augOk β = true → augOk γ = true → augOk α = true →
        augOk (rotateRightFixed (.node (.node β c d m2 s2 h2 γ) a b m s h α)) = true) ∧
    (∀ (l r : ITree) (a b m s h : Nat), augOk l = true → augOk r = true →
        augOk (fixCounts (.node l a b m s h r)) = true) :=
  ⟨propagate_restores,
   fun _ _ _ _ _ _ _ _ _ _ _ _ _ hα hβ hγ => rotateLeftFixed_aug hα hβ hγ,
   fun _ _ _ _ _ _ _ _ _ _ _ _ _ hβ hγ hα => rotateRightFixed_aug hβ hγ hα,
   fun _ _ _ _ _ _ _ hl hr => fixCounts_aug hl hr⟩

/-! ## The comparator bug (C5) -/

/-- C5 fails on the code: the comparator computes
`(int)(lhs->low - rhs->low)`, an unsigned wrap-around subtraction cast to a
signed 32-bit value.  With `lhs = (2^31, 0)` and `rhs = (0, 0)`,
lexicographically `rhs < lhs`, so a genuine three-way comparison must return
a positive value on `(lhs, rhs)` — yet the code returns a negative one (and is
negative in both argument orders, so it is not even antisymmetric). -/
theorem c5_cmp_misorders_extremes :
    pairLtB (0, 0) (2 ^ 31, 0) = true ∧
    interval_tree_cmp (2 ^ 31, 0) (0, 0) < 0 ∧
    interval_tree_cmp (0, 0) (2 ^ 31, 0) < 0 := by
  refine ⟨by decide, ?_, ?_⟩ <;> norm_num [interval_tree_cmp, usub32, toInt32]

/-! ## The stored maximum under a signed endpoint type (C7) -/

theorem augOkZ_node {l r : ZTree} {a b m : Int} {s h : Nat}
    (ha : augOkZ (.node l a b m s h r) = true) :
    augOkZ l = true ∧ augOkZ r = true ∧
      m = max (max b (nodeMaxZ l)) (nodeMaxZ r) ∧
      s = 1 + nodeSizeZ l + nodeSizeZ r ∧
      h = 1 + max (nodeHeightZ l) (nodeHeightZ r) := by
  simp only [augOkZ, Bool.and_eq_true, beq_iff_eq] at ha
  tauto

theorem foldr_max_zero_nonneg : ∀ (xs : List Int), 0 ≤ xs.foldr max 0
  | [] => le_refl 0
  | x :: xs => le_trans (foldr_max_zero_nonneg xs) (le_max_right x _)

theorem foldr_max_of_nonneg (xs : List Int) :
    ∀ (c : Int), 0 ≤ c → xs.foldr max c = max (xs.foldr max 0) c := by
  induction xs with
  | nil => intro c hc; simp [hc]
  | cons x xs ih =>
    intro c hc
    show max x (xs.foldr max c) = max (max x (xs.foldr max 0)) c
    rw [ih c hc]
    omega

theorem nodeMaxZ_node {l r : ZTree} {a b m : Int} {s h : Nat} :
    nodeMaxZ (.node l a b m s h r) = m := rfl

/-- C7 (amended): under the augmentation invariant, a node's stored `max` is
the maximum of `0` and all high endpoints in its subtree — an upper bound of
every high, and the true subtree maximum whenever some high is nonnegative
(always, for the unsigned endpoint type), but `0` rather than the true
maximum when the endpoint type is signed and every high in the subtree is
negative. -/
theorem c7_amended (t : ZTree) (ha : augOkZ t = true) :
    nodeMaxZ t = (highsZ t).foldr max 0 ∧ (∀ x ∈ highsZ t, x ≤ nodeMaxZ t) := by
  induction t with
  | leaf => exact ⟨rfl, by intro x hx; simp [highsZ] at hx⟩
  | node l a b m s h r ihl ihr =>
    obtain ⟨hal, har, hm, -, -⟩ := augOkZ_node ha
    obtain ⟨ihl1, ihl2⟩ := ihl hal
    obtain ⟨ihr1, ihr2⟩ := ihr har
    have hfold : (highsZ (ZTree.node l a b m s h r)).foldr max 0
        = max ((highsZ l).foldr max 0) (max b ((highsZ r).foldr max 0)) := by
      show ((highsZ l ++ b :: highsZ r).foldr max 0) = _
      rw [List.foldr_append]
      exact foldr_max_of_nonneg (highsZ l) _
        (le_trans (foldr_max_zero_nonneg (highsZ r)) (le_max_right b _))
    constructor
    · rw [hfold, nodeMaxZ_node, hm, ihl1, ihr1]
      omega
    · intro x hx
      rw [nodeMaxZ_node, hm]
      simp only [highsZ, List.mem_append, List.mem_cons] at hx
      rcases hx with hx | hx | hx
      · have := ihl2 x hx; omega
      · subst hx; omega
      · have := ihr2 x hx; omega

/-- C7 is false for signed endpoints: inserting the single interval
`[-5, -1]` into an empty tree (the engine links it as root and invokes the
propagate hook, whose first action is `fix_counts` on the node) stores
`max = 0`, while the maximum high endpoint over the node's subtree is `-1`. -/
theorem c7_counterexample :
    nodeMaxZ (fixCountsZ (.node .leaf (-5) (-1) 0 0 0 .leaf)) = 0 ∧
    highsZ (fixCountsZ (.node .leaf (-5) (-1) 0 0 0 .leaf)) = [(-1 : Int)] ∧
    ((0 : Int) ≠ -1) := by
  refine ⟨?_, rfl, by decide⟩
  show max (max (-1 : Int) 0) 0 = 0
  decide

/-! ## Clear (C8) and exhausted iterators (C9) -/

/-- C8: `clear` only drops the root reference held in the tree handle (it
builds no nodes and reads none); afterwards `find` returns `none` and the
iterator yields nothing, for every query bounds and any iteration budget. -/
theorem c8_clear_empties_queries (t : RBTree) (lo hi fuel : Nat) :
    interval_tree_clear t = ⟨.leaf⟩ ∧
    interval_tree_find (interval_tree_clear t) lo hi = none ∧
    (interval_tree_iter_first (interval_tree_clear t) lo hi).n = none ∧
    iterSeq fuel (interval_tree_iter_first (interval_tree_clear t) lo hi) = [] := by
  refine ⟨rfl, rfl, rfl, ?_⟩
  show iterSeq fuel ⟨lo, hi, none⟩ = []
  exact iterSeq_none

/-- C9: the exhausted iterator state is terminal: with an absent current-node
reference, `iter_next` returns the iterator unchanged — query bounds
included — and every further call keeps the cursor absent. -/
theorem c9_exhausted_terminal (it : IterState) (hn : it.n = none) :
    interval_tree_iter_next it = it ∧
    (∀ k, (interval_tree_iter_next^[k] it).n = none) := by
  obtain ⟨lo, hi, n⟩ := it
  have hn' : n = none := hn
  subst hn'
  have hfix : interval_tree_iter_next ⟨lo, hi, none⟩ = ⟨lo, hi, none⟩ := rfl
  refine ⟨hfix, fun k => ?_⟩
  rw [Function.iterate_fixed hfix k]

/-! ## Termination of the traversal loops (C10) -/

theorem nodeCount_node {l r : ITree} {a b m s h : Nat} :
    nodeCount (.node l a b m s h r) = 1 + nodeCount l + nodeCount r := rfl

theorem findFuel_spec {lo hi : Nat} :
    ∀ (t : ITree) (fuel : Nat), nodeCount t < fuel →
      findFuel lo hi fuel t = some (findGo lo hi t) := by
  intro t
  induction t with
  | leaf =>
    intro fuel hf
    cases fuel with
    | zero => omega
    | succ fuel => rfl
  | node l a b m s h r ihl ihr =>
    intro fuel hf
    cases fuel with
    | zero => omega
    | succ fuel =>
      rw [nodeCount_node] at hf
      cases hI : intersects lo hi (a, b) with
      | true => simp [findFuel, findGo, hI]
      | false =>
        cases hC : condLeft l lo with
        | true =>
          have hr := ihr fuel (by omega)
          simp [findFuel, findGo, hI, hC, hr]
        | false =>
          have hl := ihl fuel (by omega)
          simp [findFuel, findGo, hI, hC, hl]

theorem minGoFuel_spec {lo hi : Nat} :
    ∀ (t : ITree) (fuel : Nat) (ctx : Ctx) (best : Option Pos), nodeCount t < fuel →
      minGoFuel lo hi fuel t ctx best = some (minGo lo hi t ctx best) := by
  intro t
  induction t with
  | leaf =>
    intro fuel ctx best hf
    cases fuel with
    | zero => omega
    | succ fuel => rfl
  | node l a b m s h r ihl ihr =>
    intro fuel ctx best hf
    cases fuel with
    | zero => omega
    | succ fuel =>
      rw [nodeCount_node] at hf
      cases hC : condLeft l lo with
      | true =>
        cases hI : intersects lo hi (a, b) with
        | true => simp [minGoFuel, minGo, hC, hI]
        | false =>
          have hr := ihr fuel (.right l a b m s h :: ctx) best (by omega)
          simp [minGoFuel, minGo, hC, hI, hr]
      | false =>
        cases hI : intersects lo hi (a, b) with
        | true =>
          have hl := ihl fuel (.left a b m s h r :: ctx)
            (some ⟨l, a, b, m, s, h, r, ctx⟩) (by omega)
          simp [minGoFuel, minGo, hC, hI, hl]
        | false =>
          have hl := ihl fuel (.left a b m s h r :: ctx) best (by omega)
          simp [minGoFuel, minGo, hC, hI, hl]

theorem nextUpFuel_spec {lo hi : Nat} :
    ∀ (ctx : Ctx) (fuel : Nat) (t : ITree), ctx.length < fuel →
      nextUpFuel lo hi fuel t ctx = some (nextUp lo hi t ctx) := by
  intro ctx
  induction ctx with
  | nil =>
    intro fuel t hf
    cases fuel with
    | zero => omega
    | succ fuel => rfl
  | cons f ctx ih =>
    intro fuel t hf
    cases fuel with
    | zero => omega
    | succ fuel =>
      have hlen : ctx.length < fuel := by
        rw [List.length_cons] at hf
        omega
      cases f with
      | right l a b m s h =>
        have hrec := ih fuel (.node l a b m s h t) hlen
        simp [nextUpFuel, nextUp, hrec]
      | left a b m s h r =>
        cases hI : intersects lo hi (a, b) with
        | true => simp [nextUpFuel, nextUp, hI]
        | false =>
          cases r with
          | leaf =>
            have hrec := ih fuel (.node t a b m s h .leaf) hlen
            simp [nextUpFuel, nextUp, hI, hrec]
          | node rl ra rb rm rs rh rr =>
            cases hm : minGo lo hi (.node rl ra rb rm rs rh rr)
                (.right t a b m s h :: ctx) none with
            | some q => simp [nextUpFuel, nextUp, hI, hm]
            | none =>
              have hrec := ih fuel (.node t a b m s h (.node rl ra rb rm rs rh rr)) hlen
              simp [nextUpFuel, nextUp, hI, hm, hrec]

theorem nextStepFuel_spec {lo hi : Nat} (t : ITree) (ctx : Ctx) (fuel : Nat)
    (hf : ctx.length < fuel) :
    nextStepFuel lo hi fuel t ctx = some (nextStep lo hi t ctx) := by
  cases t with
  | leaf => rfl
  | node l a b m s h r =>
    cases r with
    | leaf =>
      have hrec := @nextUpFuel_spec lo hi ctx fuel (.node l a b m s h .leaf) hf
      simp [nextStepFuel, nextStep, hrec]
    | node rl ra rb rm rs rh rr =>
      cases hm : minGo lo hi (.node rl ra rb rm rs rh rr)
          (.right l a b m s h :: ctx) none with
      | some q => simp [nextStepFuel, nextStep, hm]
      | none =>
        have hrec := @nextUpFuel_spec lo hi ctx fuel
          (.node l a b m s h (.node rl ra rb rm rs rh rr)) hf
        simp [nextStepFuel, nextStep, hm, hrec]

/-- C10: the traversal loops of `find`, `min_interval` and `next_interval`
terminate on every finite well-formed tree: each iteration either strictly
descends to a child or strictly ascends past a context frame, so an iteration
budget of the subtree's node count (for the descents) or the context's length
(for the climb) always suffices — the fueled loops never exhaust their fuel
and agree with the total functions. -/
theorem c10_traversals_terminate :
    (∀ (lo hi : Nat) (t : ITree),
        findFuel lo hi (nodeCount t + 1) t = some (findGo lo hi t)) ∧
    (∀ (lo hi : Nat) (t : ITree) (ctx : Ctx) (best : Option Pos),
        minGoFuel lo hi (nodeCount t + 1) t ctx best = some (minGo lo hi t ctx best)) ∧
    (∀ (lo hi : Nat) (t : ITree) (ctx : Ctx),
        nextUpFuel lo hi (ctx.length + 1) t ctx = some (nextUp lo hi t ctx)) ∧
    (∀ (lo hi : Nat) (t : ITree) (ctx : Ctx),
        nextStepFuel lo hi (ctx.length + 1) t ctx = some (nextStep lo hi t ctx)) :=
  ⟨fun _ _ t => findFuel_spec t _ (Nat.lt_succ_self _),
   fun _ _ t ctx best => minGoFuel_spec t _ ctx best (Nat.lt_succ_self _),
   fun _ _ t ctx => nextUpFuel_spec ctx _ t (Nat.lt_succ_self _),
   fun _ _ t ctx => nextStepFuel_spec t ctx _ (Nat.lt_succ_self _)⟩

/-! ## Concrete witnesses -/

/-- Witness for C1 at the spec's worked example: the hypotheses hold of
`exTree`, and iterating the query `[4,4]` yields exactly `[1,5]`, `[3,7]`. -/
theorem c1_witness :
    bstOk exTree.root = true ∧ augOk exTree.root = true ∧ 4 ≤ 4 ∧
    iterSeq ((inorder exTree.root).length + 1) (interval_tree_iter_first exTree 4 4)
      = [(1, 5), (3, 7)] := by
  refine ⟨by decide, by decide, by decide, ?_⟩
  rw [(c1_iterate_eq_brute_force exTree 4 4 (by decide) (by decide) (by decide)).1]
  decide

/-- Witness for the amended C2 at the counterexample configuration: from the
node `[3,8]` of `exTree2` with query `[7,8]`, `next` skips the
non-overlapping ancestor `[5,6]` and returns `[7,9]`. -/
theorem c2_amended_witness :
    (nextInterval 7 8 (some exPos2)).map Pos.data = some (7, 9) :=
  (c2_amended 7 8 5 6 9 3 2 (.node .leaf 7 9 9 1 1 .leaf) exPos2 []
    (by decide) rfl (by decide) (by decide)).2 (7, 9) [] (by decide)

/-- Witness for C3: on `exTree` with query `[4,4]`, `find` returns `[3,7]`,
which overlaps and is stored. -/
theorem c3_witness :
    intersects 4 4 (3, 7) = true ∧ (3, 7) ∈ inorder exTree.root :=
  (c3_find_iff_overlap exTree 4 4 (by decide) (by decide) (by decide)).2 (3, 7) (by decide)

/-- Witness for C4: a concrete propagate run, both rotations and a parent
fixup, each restoring the augmentation invariant. -/
theorem c4_witness :
    augOk (propagate (.node .leaf 2 9 0 0 0 .leaf)
        [.left 5 6 9 3 2 (.node .leaf 7 9 9 1 1 .leaf)]) = true ∧
    augOk (rotateLeftFixed (.node .leaf 1 2 0 0 0 (.node .leaf 3 4 0 0 0 .leaf))) = true ∧
    augOk (rotateRightFixed (.node (.node .leaf 1 2 0 0 0 .leaf) 3 4 0 0 0 .leaf)) = true ∧
    augOk (fixCounts (.node .leaf 1 2 0 0 0 .leaf)) = true :=
  ⟨c4_augmentation_restored.1 _ _ (by decide) (by decide),
   c4_augmentation_restored.2.1 .leaf .leaf .leaf 1 2 0 0 0 3 4 0 0 0
     (by decide) (by decide) (by decide),
   c4_augmentation_restored.2.2.1 .leaf .leaf .leaf 1 2 0 0 0 3 4 0 0 0
     (by decide) (by decide) (by decide),
   c4_augmentation_restored.2.2.2 .leaf .leaf 1 2 0 0 0 (by decide) (by decide)⟩

/-- Witness for C6: on `exTree` with query `[4,4]`, `min_interval` returns
`[1,5]`, the head of the brute-force filter. -/
theorem c6_witness :
    (minGo 4 4 exTree.root [] none).map Pos.data
      = ((inorder exTree.root).filter (intersects 4 4)).head? ∧
    (minGo 4 4 exTree.root [] none).map Pos.data = some (1, 5) :=
  ⟨(c6_min_interval_first exTree.root 4 4 (by decide) (by decide) (by decide)).1,
   by decide⟩

/-- Witness for the amended C7 at a consistent single-node signed tree with
high endpoint `-1`: the stored max is the fold with `0`, an upper bound of
the high. -/
theorem c7_amended_witness :
    nodeMaxZ (ZTree.node .leaf (-5) (-1) 0 1 1 .leaf)
      = (highsZ (ZTree.node .leaf (-5) (-1) 0 1 1 .leaf)).foldr max 0 ∧
    (-1 : Int) ≤ nodeMaxZ (ZTree.node .leaf (-5) (-1) 0 1 1 .leaf) :=
  ⟨(c7_amended _ (by decide)).1, (c7_amended _ (by decide)).2 (-1) (by decide)⟩

/-- Witness for C9 at a concrete exhausted iterator. -/
theorem c9_witness :
    interval_tree_iter_next ⟨0, 0, none⟩ = ⟨0, 0, none⟩ ∧
    (interval_tree_iter_next^[5] (⟨0, 0, none⟩ : IterState)).n = none :=
  ⟨(c9_exhausted_terminal ⟨0, 0, none⟩ rfl).1,
   (c9_exhausted_terminal ⟨0, 0, none⟩ rfl).2 5⟩

end IntervalTree
